import Mathlib

/-!
# Verification of the learn_observe_KKL observer engine

Shallow embedding of the KKL (Kazantzis-Kravaris/Luenberger) observer learning
repository: the linear observer dynamics, the corrected-dynamics vector field
from the reversed-Duffing experiment script, the RK4 fixed-step ODE service,
data generation, checkpoint retention, CSV ingestion and the train/validation
splits, together with theorems settling the specification claims.

Definitions are stated over an arbitrary field `K` (instantiated at `ℝ` in the
theorems) so that they remain executable.
-/

namespace LearnKKL

open Filter

variable {K : Type} [LinearOrderedField K]

/-- The transformation model together with the fixed observer matrices:
encoder `T : K^dim_x → K^dim_z`, decoder `T* : K^dim_z → K^dim_x`, the
encoder Jacobian (the code computes it by `vmap(jacfwd(self.encoder))`),
the system vector field `f`, the output map `h`, and the linear observer
matrices `D` (gain) and `F` (coupling). -/
structure ObserverNet (K : Type) [LinearOrderedField K] (dx dy dz : ℕ) where
  D : Matrix (Fin dz) (Fin dz) K
  F : Matrix (Fin dz) (Fin dy) K
  encoder : (Fin dx → K) → Fin dz → K
  decoder : (Fin dz → K) → Fin dx → K
  encoderJac : (Fin dx → K) → Matrix (Fin dz) (Fin dx) K
  f : (Fin dx → K) → Fin dx → K
  h : (Fin dx → K) → Fin dy → K

/-- The KKL PDE residual (spec §4.4 `pde_residual`): contract the encoder
Jacobian with `f(x)` and compare against `D·T(x) + F·h(x)`. -/
def pdeResidual {dx dy dz : ℕ} (net : ObserverNet K dx dy dz) (x : Fin dx → K) :
    Fin dz → K :=
  fun i =>
    (net.encoderJac x).mulVec (net.f x) i -
      (net.D.mulVec (net.encoder x) i + net.F.mulVec (net.h x) i)

/-- The "corrected dynamics" vector field `dydt` monkey-patched into
`simulate` in `0_supervised_revduffing.py` (lines 251-266).  The batch
dimension of the tensors is the index `p : Fin b`; `torch.matmul(z, D.t())`
applied to a batch of row vectors is `D.mulVec` of each row, and
`torch.einsum("ijk,ik->ij", dTdx, f(xhat))` is the batched
Jacobian-vector product. -/
def dydt {dx dy dz b : ℕ} (net : ObserverNet K dx dy dz)
    (measurement : K → Fin dy → K) (t : K) (z : Fin b → Fin dz → K) :
    Fin b → Fin dz → K :=
  let xhat : Fin b → Fin dx → K := fun p => net.decoder (z p)
  let zhat : Fin b → Fin dz → K := fun p => net.encoder (xhat p)
  let dTdx : Fin b → Matrix (Fin dz) (Fin dx) K := fun p => net.encoderJac (xhat p)
  let lhs : Fin b → Fin dz → K := fun p => (dTdx p).mulVec (net.f (xhat p))
  let rhs : Fin b → Fin dz → K := fun p i =>
    net.D.mulVec (zhat p) i + net.F.mulVec (net.h (xhat p)) i
  fun p i =>
    net.D.mulVec (z p) i + net.F.mulVec (measurement t) i + (lhs p i - rhs p i)

/-- The nominal linear observer vector field `ż = D·z + F·y(t)`
(spec §4.4 `predict`): the dynamics integrated by the default path. -/
def nominalField {dy dz : ℕ} (D : Matrix (Fin dz) (Fin dz) K)
    (F : Matrix (Fin dz) (Fin dy) K) (measurement : K → Fin dy → K) (t : K)
    (z : Fin dz → K) : Fin dz → K :=
  fun i => D.mulVec z i + F.mulVec (measurement t) i

/-- One step of the classical fixed-step Runge-Kutta-4 scheme, the
`'rk4'` method of the ODE Integration Service (`solver_options` in
`0_supervised_revduffing.py` line 74). -/
def rk4Step {n : ℕ} (f : K → (Fin n → K) → Fin n → K) (dt t : K)
    (z : Fin n → K) : Fin n → K :=
  let k1 := f t z
  let k2 := f (t + dt / 2) (fun i => z i + dt / 2 * k1 i)
  let k3 := f (t + dt / 2) (fun i => z i + dt / 2 * k2 i)
  let k4 := f (t + dt) (fun i => z i + dt * k3 i)
  fun i => z i + dt / 6 * (k1 i + 2 * k2 i + 2 * k3 i + k4 i)

/-- The RK4 trajectory on the uniform grid `t0 + k·dt`. -/
def rk4Sol {n : ℕ} (f : K → (Fin n → K) → Fin n → K) (t0 dt : K)
    (z0 : Fin n → K) : ℕ → Fin n → K
  | 0 => z0
  | k + 1 => rk4Step f dt (t0 + (k : K) * dt) (rk4Sol f t0 dt z0 k)

/-- The RK4 stability polynomial `R(x) = 1 + x + x²/2 + x³/6 + x⁴/24`:
one RK4 step on `ż = a·z` multiplies the state by `R(dt·a)`. -/
def stabPoly {F : Type} [Field F] (x : F) : F :=
  1 + x + x ^ 2 / 2 + x ^ 3 / 6 + x ^ 4 / 24

/-- The RK4 stability polynomial applied to the matrix `dt·D`: one RK4 step
on the linear dynamics `ż = D·z` multiplies the state by this matrix. -/
def stabMatrix {F : Type} [Field F] {n : ℕ} (dt : F)
    (D : Matrix (Fin n) (Fin n) F) : Matrix (Fin n) (Fin n) F :=
  1 + dt • D + (dt ^ 2 / 2) • D ^ 2 + (dt ^ 3 / 6) • D ^ 3 +
    (dt ^ 4 / 24) • D ^ 4

/-- The homogeneous linear observer dynamics `ż = D·z` (the observer with
`F·y = 0`), as integrated by the ODE Integration Service. -/
def linearObserverField {n : ℕ} (D : Matrix (Fin n) (Fin n) K) :
    K → (Fin n → K) → Fin n → K :=
  fun _ z => D.mulVec z

/-- Modelled from the spec: `LuenbergerObserver.simulate` (not under `src/`;
its shape is mirrored by the monkey-patched `simulate` of
`0_supervised_revduffing.py` lines 240-271).  Output timestamps
`tq = arange(tsim[0], tsim[1], dt)` (its length is passed as `numSteps`),
a 1D-interpolated measurement function `interp y`, a zero initial value
unless `z0` is specified, and the ODE Integration Service run on the linear
observer dynamics `ż = D·z + F·y(t)`. -/
def simulateObserver {dy dz : ℕ} (D : Matrix (Fin dz) (Fin dz) K)
    (F : Matrix (Fin dz) (Fin dy) K)
    (interp : List (K × (Fin dy → K)) → K → Fin dy → K)
    (y : List (K × (Fin dy → K))) (t0 dt : K) (numSteps : ℕ)
    (z0 : Option (Fin dz → K)) : List K × List (Fin dz → K) :=
  let measurement := interp y
  let zInit := z0.getD (fun _ => 0)
  ((List.range numSteps).map fun k => t0 + (k : K) * dt,
   (List.range numSteps).map fun k =>
     rk4Sol (nominalField D F measurement) t0 dt zInit k)

/-- Modelled from the spec: `LuenbergerObserver.predict` (§4.4) — run
`simulate` on the measurement time series and decode every resulting
observer state. -/
def predictObserver {dx dy dz : ℕ} (D : Matrix (Fin dz) (Fin dz) K)
    (F : Matrix (Fin dz) (Fin dy) K)
    (decoder : (Fin dz → K) → Fin dx → K)
    (interp : List (K × (Fin dy → K)) → K → Fin dy → K)
    (y : List (K × (Fin dy → K))) (t0 dt : K) (numSteps : ℕ)
    (z0 : Option (Fin dz → K)) : List (Fin dx → K) :=
  (simulateObserver D F interp y t0 dt numSteps z0).2.map decoder

/-- The value `np.linspace(lo, hi, n)[i]`: `n` evenly spaced points with both
endpoints included. -/
def linspaceVal (lo hi : K) (n i : ℕ) : K :=
  lo + (i : K) * ((hi - lo) / ((n : K) - 1))

/-- Modelled from the spec: `generate_data_svl` with `method="uniform"`
(§4.3, not under `src/`; called in `0_supervised_revduffing.py` line 287) —
the regular grid over the per-dimension bounds with `n` points per axis,
the Cartesian product of the per-axis `linspace`s. -/
def uniformGrid : List (K × K) → ℕ → List (List K)
  | [], _ => [[]]
  | b :: bs, n =>
      ((List.range n).map fun i => linspaceVal b.1 b.2 n i).flatMap
        fun v => (uniformGrid bs n).map fun p => v :: p

/-- Modelled from the spec: `generate_data_svl` with `method="LHS"` (§4.3,
not under `src/`; called in `0_supervised_revduffing.py` line 91) — a Latin
Hypercube design: `m` sample points; in each axis `a` the sample `s` falls in
stratum `perm a s` of width `(hi-lo)/m`, at relative offset `off a s`. -/
def lhsSample (bounds : List (K × K)) (m : ℕ) (perm : ℕ → ℕ → ℕ)
    (off : ℕ → ℕ → K) : List (List K) :=
  (List.range m).map fun s =>
    (List.range bounds.length).map fun a =>
      let b := bounds.getD a (0, 0)
      b.1 + ((perm a s : K) + off a s) * ((b.2 - b.1) / (m : K))

/-- The error taxonomy of spec §7. -/
inductive KKLError where
  | shapeMismatch : KKLError
  | integrationDivergence : KKLError
  | configurationError : KKLError
  | convergenceFailure : KKLError
deriving DecidableEq

/-- Modelled from the spec: §4.3 edge case / §7 — during data generation each
sampled initial condition is integrated (`integ`) and the sample is dropped,
not substituted, when the sanity-bound check `divergesB` fires on the
resulting trajectory. -/
def generateDataDropping {α β : Type} (integ : α → β) (divergesB : β → Bool)
    (ics : List α) : List β :=
  (ics.map integ).filter fun tr => ! divergesB tr

/-- Modelled from the spec: §7 — divergence during evaluation/prediction is
fatal and surfaced to the caller as `IntegrationDivergence`; there is no
fallback and no retry. -/
def predictChecked {γ δ : Type} (divergesB : γ → Bool) (decodeTraj : γ → δ)
    (run : γ) : Except KKLError δ :=
  if divergesB run then Except.error KKLError.integrationDivergence
  else Except.ok (decodeTraj run)

/-- Modelled from the spec: §4.5 checkpointing and
`ModelCheckpoint(monitor="val_loss")` (`0_supervised_revduffing.py` line 141,
the callback itself is not under `src/`) — after each validation check the
retained checkpoint is the one with the smallest validation loss seen so far.
`first` is the loss of the first validation check and `rest` the later ones;
`bestAfter first rest k` is the retained best validation loss after `1 + k`
validation checks. -/
def bestAfter (first : K) (rest : List K) (k : ℕ) : K :=
  (rest.take k).foldl min first

/-- The columns strictly between the index column and the timestamp column of
a CSV row: `row[1:-1]` (`5_supervised_qqs2_meas1.py` line 267). -/
def middleColumns (row : List K) : List K :=
  (row.drop 1).dropLast

/-- The timestamp column of a CSV row: `row[-1]`. -/
def timestampCol (row : List K) : K :=
  row.getLastD 0

/-- The valid rows of the experimental CSV: `exp_data[1:2001]`
(`5_supervised_qqs2_meas1.py` lines 266-267) — drop the header row and keep
the next 2000 rows. -/
def validRows (rows : List (List K)) : List (List K) :=
  (rows.drop 1).take 2000

/-- The ingested time grid `tq_exp = exp_data[1:2001, -1] - exp_data[1, -1]`
(`5_supervised_qqs2_meas1.py` line 266): timestamps shifted by the first
valid row's timestamp. -/
def ingestTimeGrid (rows : List (List K)) : List K :=
  (validRows rows).map fun r =>
    timestampCol r - timestampCol ((validRows rows).headD [])

/-- The ingested data matrix `exp_data[1:2001, 1:-1]`
(`5_supervised_qqs2_meas1.py` line 267): the columns strictly between the
index column and the timestamp column of the valid rows. -/
def ingestDataMatrix (rows : List (List K)) : List (List K) :=
  (validRows rows).map middleColumns

/-- The number of trajectories in a trajectory tensor of shape
(time, trajectory, feature): the length of dimension 1. -/
def numTrajs {α : Type} (data : List (List α)) : ℕ :=
  (data.headD []).length

/-- `torch.cat(torch.unbind(data, dim=1), dim=0)`
(`5_supervised_qqs2_meas1.py` line 105): unbind the trajectory tensor of
shape (time, trajectory, feature) along the trajectory dimension and
concatenate the resulting per-trajectory time series along the time
dimension. -/
def flattenTrajData {α : Type} (d0 : α) (data : List (List α)) : List α :=
  (List.range (numTrajs data)).flatMap fun j => data.map fun row => row.getD j d0

/-- `train_test_split(data, test_size=0.3, shuffle=False)`
(`5_supervised_qqs2_meas1.py` line 121): with `shuffle=False` the split is a
head/tail split that preserves the order of the samples; `nTest` is the
number of validation samples. -/
def trainTestSplitNoShuffle {α : Type} (l : List α) (nTest : ℕ) :
    List α × List α :=
  (l.take (l.length - nTest), l.drop (l.length - nTest))

/-- The `shuffle` flag of the train/validation split performed after
trajectory-mode data generation (`5_supervised_qqs2_meas1.py` line 121). -/
def trajModeSplitShuffle : Bool := false

/-- The `shuffle` flag of the train/validation split performed after
grid/space-filling-mode data generation (`0_supervised_revduffing.py`
line 93). -/
def gridModeSplitShuffle : Bool := true

/-- The configuration fields of a `Learner` that carry the dataset
(`learn_KKL.learner.Learner`; constructed in `0_supervised_revduffing.py`
lines 124-136 and 179-191). -/
structure LearnerCfg (α : Type) where
  trainingData : α
  validationData : α
  method : String
  batchSize : ℕ

/-- The learner for the forward map `T` of `0_supervised_revduffing.py`
lines 124-136, fed the two halves of the one split performed at line 93. -/
def revDuffingLearnerT {α : Type} (split : α × α) : LearnerCfg α :=
  { trainingData := split.1, validationData := split.2, method := "T",
    batchSize := 100 }

/-- The learner for the backward map `T_star` of `0_supervised_revduffing.py`
lines 179-191, fed the two halves of the same split. -/
def revDuffingLearnerTstar {α : Type} (split : α × α) : LearnerCfg α :=
  { trainingData := split.1, validationData := split.2, method := "T_star",
    batchSize := 100 }

/-- The data flow of `0_supervised_revduffing.py`: the dataset is generated
once (line 91), split once (line 93, `splitFn` standing for
`train_test_split(data, test_size=0.3, shuffle=True)`), and both learners
are constructed from the resulting pair. -/
def revDuffingLearners {α : Type} (generated : α) (splitFn : α → α × α) :
    LearnerCfg α × LearnerCfg α :=
  let s := splitFn generated
  (revDuffingLearnerT s, revDuffingLearnerTstar s)

/-- Modelled from the spec: §6 configuration `D = "block_diag"` — the
observer constructor auto-generates a block-diagonal `dim_z × dim_z` gain
matrix from the cutoff frequency `wc`, built of 2×2 blocks
`[[-wc, wc], [-wc, -wc]]` (complex-conjugate eigenvalue pair `-wc ± i·wc`,
magnitude `wc·√2`) and, when `dim_z` is odd, a final scalar block `-wc`.
Indices `2p` and `2p+1` form block `p`. -/
def blockDiagGain (wc : K) (n : ℕ) : Matrix (Fin n) (Fin n) K :=
  Matrix.of fun i j =>
    if (i : ℕ) = (j : ℕ) then -wc
    else if (i : ℕ) / 2 = (j : ℕ) / 2 then
      (if (i : ℕ) % 2 = 0 then wc else -wc)
    else 0

/-- The identically-zero interpolated measurement function, used to
instantiate the predict theorem. -/
def zeroInterp {dy : ℕ} : List (K × (Fin dy → K)) → K → Fin dy → K :=
  fun _ _ _ => 0

/-- A small example CSV: a header row followed by two valid rows, each laid
out as index, data columns, timestamp. -/
def csvRowsExample : List (List ℝ) := [[0, 0], [10, 5, 100], [20, 6, 101]]

/-- A transformation model whose PDE residual vanishes identically (all maps
and matrices zero), used to instantiate the corrected-dynamics theorem. -/
def zeroNet : ObserverNet K 1 1 1 :=
  { D := 0, F := 0, encoder := fun _ _ => 0, decoder := fun _ _ => 0,
    encoderJac := fun _ => 0, f := fun _ _ => 0, h := fun _ _ => 0 }

end LearnKKL

namespace LearnKKL

open Filter

open scoped NNReal ENNReal

variable {K : Type} [LinearOrderedField K]

theorem rk4Step_diag {n : ℕ} (d : Fin n → K) (dt t : K) (z : Fin n → K) :
    rk4Step (fun _ w i => d i * w i) dt t z =
      fun i => stabPoly (dt * d i) * z i := by
  funext i
  simp only [rk4Step, stabPoly]
  field_simp
  ring

theorem rk4Sol_diag {n : ℕ} (d : Fin n → K) (t0 dt : K) (z0 : Fin n → K)
    (k : ℕ) :
    rk4Sol (fun _ w i => d i * w i) t0 dt z0 k =
      fun i => stabPoly (dt * d i) ^ k * z0 i := by
  induction k with
  | zero => funext i; simp [rk4Sol]
  | succ m ih =>
      funext i
      rw [rk4Sol, ih, rk4Step_diag]
      ring

theorem linearObserverField_diagonal {n : ℕ} (d : Fin n → K) :
    linearObserverField (Matrix.diagonal d) = fun _ w i => d i * w i := by
  funext t w i
  simp [linearObserverField, Matrix.mulVec_diagonal]

theorem stabPoly_pos {x : ℝ} (h1 : -1 ≤ x) (h2 : x < 0) : 0 < stabPoly x := by
  simp only [stabPoly]
  nlinarith [sq_nonneg x, sq_nonneg (x + 1), sq_nonneg (x ^ 2 + x),
    sq_nonneg (x ^ 2 - x), sq_nonneg (x ^ 2 + 2 * x)]

theorem stabPoly_lt_one {x : ℝ} (h1 : -1 ≤ x) (h2 : x < 0) : stabPoly x < 1 := by
  simp only [stabPoly]
  nlinarith [sq_nonneg x, sq_nonneg (x + 1), sq_nonneg (x ^ 2 + x),
    sq_nonneg (x ^ 2 - x)]

theorem abs_stabPoly_lt_one {x : ℝ} (h1 : -1 ≤ x) (h2 : x < 0) :
    |stabPoly x| < 1 :=
  abs_lt.mpr ⟨by linarith [stabPoly_pos h1 h2], stabPoly_lt_one h1 h2⟩

theorem stabPoly_neg_three : stabPoly (-3 : ℝ) = 11 / 8 := by
  norm_num [stabPoly]

/-- C4, counterexample.  The gain matrix `D = diag(-3000)` has its only
eigenvalue `-3000` of negative real part, and the initial condition `z0 = 1`
is nonzero, yet the trajectory of `ż = D·z` produced by the ODE Integration
Service configured as in the repository (`rk4` with `step_size = 1e-3`,
`0_supervised_revduffing.py` line 74) does not converge to zero: `dt·λ = -3`
lies outside the RK4 stability region and the iterates grow like `(11/8)ᵏ`. -/
theorem claim4_counterexample :
    (∀ μ ∈ spectrum ℂ
        ((Matrix.diagonal (fun _ : Fin 1 => (-3000 : ℝ))).map Complex.ofReal),
      μ.re < 0) ∧
    (fun _ : Fin 1 => (1 : ℝ)) ≠ 0 ∧
    ¬ Tendsto
        (fun k => rk4Sol
          (linearObserverField (Matrix.diagonal (fun _ : Fin 1 => (-3000 : ℝ))))
          0 (1 / 1000) (fun _ => 1) k)
        atTop (nhds 0) := by
  refine ⟨?_, ?_, ?_⟩
  · intro μ hμ
    rw [Matrix.diagonal_map (by simp), spectrum_diagonal] at hμ
    obtain ⟨i, hi⟩ := hμ
    rw [← hi]
    norm_num
  · intro h
    have := congrFun h 0
    norm_num at this
  · intro h
    have hdiag :
        (fun k => rk4Sol
          (linearObserverField (Matrix.diagonal (fun _ : Fin 1 => (-3000 : ℝ))))
          0 (1 / 1000) (fun _ => 1) k) =
        fun k (i : Fin 1) => (11 / 8 : ℝ) ^ k := by
      funext k i
      rw [linearObserverField_diagonal, rk4Sol_diag]
      norm_num [stabPoly]
    rw [hdiag] at h
    have hcomp : Tendsto (fun k => (11 / 8 : ℝ) ^ k) atTop (nhds 0) :=
      tendsto_pi_nhds.mp h 0
    exact (tendsto_pow_atTop_atTop_of_one_lt (by norm_num : (1 : ℝ) < 11 / 8)).not_tendsto
      (disjoint_nhds_atTop (0 : ℝ)).symm hcomp

theorem rk4Step_linear {m : ℕ} (D : Matrix (Fin m) (Fin m) ℝ) (dt t : ℝ)
    (z : Fin m → ℝ) :
    rk4Step (linearObserverField D) dt t z = (stabMatrix dt D).mulVec z := by
  have hvec : ∀ (w : Fin m → ℝ) (c : ℝ) (u : Fin m → ℝ),
      (fun i => w i + c * u i) = w + c • u := by
    intro w c u
    funext i
    simp
  simp only [rk4Step, linearObserverField, hvec]
  simp only [Matrix.mulVec_add, Matrix.mulVec_smul]
  funext i
  simp only [stabMatrix, Matrix.add_mulVec, Matrix.smul_mulVec_assoc,
    Matrix.one_mulVec, Matrix.mulVec_mulVec, Pi.add_apply, Pi.smul_apply,
    smul_eq_mul, pow_succ, pow_zero, one_mul]
  ring_nf
  simp only [mul_assoc]

theorem rk4Sol_linear {m : ℕ} (D : Matrix (Fin m) (Fin m) ℝ) (t0 dt : ℝ)
    (z0 : Fin m → ℝ) (k : ℕ) :
    rk4Sol (linearObserverField D) t0 dt z0 k =
      ((stabMatrix dt D) ^ k).mulVec z0 := by
  induction k with
  | zero => simp [rk4Sol]
  | succ j ih =>
      rw [rk4Sol, ih, rk4Step_linear, Matrix.mulVec_mulVec, ← pow_succ']

theorem pow_norm_tendsto_zero_of_spectralRadius_lt_one {A : Type}
    [NormedRing A] [NormedAlgebra ℂ A] [CompleteSpace A] (a : A)
    (h : spectralRadius ℂ a < 1) :
    Tendsto (fun k => ‖a ^ k‖) atTop (nhds 0) := by
  obtain ⟨c, hc1, hc2⟩ := exists_between h
  have hctop : c ≠ ⊤ := ne_top_of_lt hc2
  have hcr : c = ((c.toNNReal : ℝ≥0) : ℝ≥0∞) := (ENNReal.coe_toNNReal hctop).symm
  have hr1 : c.toNNReal < 1 := by
    rw [hcr] at hc2
    exact_mod_cast hc2
  have hgel := spectrum.pow_nnnorm_pow_one_div_tendsto_nhds_spectralRadius a
  have hev : ∀ᶠ k : ℕ in atTop, (‖a ^ k‖₊ : ℝ≥0∞) ^ (1 / (k : ℝ)) < c :=
    hgel.eventually_lt_const hc1
  have hev2 : ∀ᶠ k : ℕ in atTop, ‖a ^ k‖ ≤ ((c.toNNReal : ℝ)) ^ k := by
    filter_upwards [hev, eventually_ge_atTop 1] with k hk hk1
    have hk0 : (k : ℝ) ≠ 0 := Nat.cast_ne_zero.mpr (by omega)
    have h1 : ((‖a ^ k‖₊ : ℝ≥0∞) ^ (1 / (k : ℝ))) ^ (k : ℕ) ≤ c ^ (k : ℕ) :=
      pow_le_pow_left₀ (zero_le _) hk.le k
    rw [← ENNReal.rpow_natCast ((‖a ^ k‖₊ : ℝ≥0∞) ^ (1 / (k : ℝ))) k,
      ← ENNReal.rpow_mul, one_div, inv_mul_cancel₀ hk0, ENNReal.rpow_one] at h1
    rw [hcr, ← ENNReal.coe_pow, ENNReal.coe_le_coe] at h1
    calc ‖a ^ k‖ = ((‖a ^ k‖₊ : ℝ)) := rfl
      _ ≤ (((c.toNNReal ^ k : ℝ≥0) : ℝ)) := by exact_mod_cast h1
      _ = ((c.toNNReal : ℝ)) ^ k := by push_cast; rfl
  refine squeeze_zero' (Eventually.of_forall fun k => norm_nonneg _) hev2 ?_
  apply tendsto_pow_atTop_nhds_zero_of_abs_lt_one
  rw [abs_of_nonneg (c.toNNReal.coe_nonneg)]
  exact_mod_cast hr1

theorem stabMatrix_map_ofReal {m : ℕ} (dt : ℝ) (D : Matrix (Fin m) (Fin m) ℝ) :
    (stabMatrix dt D).map Complex.ofReal =
      stabMatrix (dt : ℂ) (D.map Complex.ofReal) := by
  have hpow : ∀ k : ℕ, (D ^ k).map Complex.ofReal = (D.map Complex.ofReal) ^ k :=
    fun k => by
      simpa [RingHom.mapMatrix_apply] using
        map_pow Complex.ofRealHom.mapMatrix D k
  conv_rhs => rw [stabMatrix, ← hpow 2, ← hpow 3, ← hpow 4]
  funext i j
  simp only [stabMatrix, Matrix.map_apply, Matrix.add_apply, Matrix.smul_apply,
    smul_eq_mul, Matrix.one_apply, apply_ite Complex.ofReal,
    Complex.ofReal_one, Complex.ofReal_zero]
  split_ifs <;> push_cast <;> ring

theorem aeval_stabPolynomial {m : ℕ} (dtc : ℂ)
    (Dc : Matrix (Fin m) (Fin m) ℂ) :
    Polynomial.aeval Dc (Polynomial.C 1 + Polynomial.C dtc * Polynomial.X +
      Polynomial.C (dtc ^ 2 / 2) * Polynomial.X ^ 2 +
      Polynomial.C (dtc ^ 3 / 6) * Polynomial.X ^ 3 +
      Polynomial.C (dtc ^ 4 / 24) * Polynomial.X ^ 4) = stabMatrix dtc Dc := by
  simp only [map_add, map_mul, map_pow, Polynomial.aeval_C,
    Polynomial.aeval_X, map_one]
  simp only [stabMatrix, Algebra.smul_def, map_one]

theorem eval_stabPolynomial (dtc μ : ℂ) :
    Polynomial.eval μ (Polynomial.C 1 + Polynomial.C dtc * Polynomial.X +
      Polynomial.C (dtc ^ 2 / 2) * Polynomial.X ^ 2 +
      Polynomial.C (dtc ^ 3 / 6) * Polynomial.X ^ 3 +
      Polynomial.C (dtc ^ 4 / 24) * Polynomial.X ^ 4) = stabPoly (dtc * μ) := by
  simp only [Polynomial.eval_add, Polynomial.eval_mul,
    Polynomial.eval_pow, Polynomial.eval_C, Polynomial.eval_X, stabPoly]
  ring

section MatrixBanach

attribute [local instance] Matrix.linftyOpNormedRing Matrix.linftyOpNormedAlgebra

/-- C4, amended.  For every gain matrix `D` all of whose complex eigenvalues
have negative real part and lie inside the RK4 stability region for the
configured fixed step (`|R(dt·μ)| < 1` for the stability polynomial `R`, as
the counterexample forces), the trajectory of `ż = D·z` with `F·y = 0`
produced by the fixed-step RK4 ODE Integration Service converges to zero
from every initial condition. -/
theorem claim4_amended {m : ℕ} (D : Matrix (Fin m) (Fin m) ℝ) (dt : ℝ)
    (z0 : Fin m → ℝ) (hdt : 0 < dt)
    (hspec : ∀ μ ∈ spectrum ℂ (D.map Complex.ofReal),
      μ.re < 0 ∧ Complex.abs (stabPoly ((dt : ℂ) * μ)) < 1) :
    Tendsto (fun k => rk4Sol (linearObserverField D) 0 dt z0 k) atTop
      (nhds 0) := by
  rcases Nat.eq_zero_or_pos m with hm | hm
  · subst hm
    have hconst : (fun k => rk4Sol (linearObserverField D) 0 dt z0 k) =
        fun _ => 0 := by
      funext k
      funext i
      exact absurd i.isLt (by omega)
    rw [hconst]
    exact tendsto_const_nhds
  · haveI : Nonempty (Fin m) := ⟨⟨0, hm⟩⟩
    set Dc := D.map Complex.ofReal with hDc
    set Sc := (stabMatrix dt D).map Complex.ofReal with hSc
    set p : Polynomial ℂ := Polynomial.C 1 + Polynomial.C ((dt : ℝ) : ℂ) * Polynomial.X +
      Polynomial.C (((dt : ℝ) : ℂ) ^ 2 / 2) * Polynomial.X ^ 2 +
      Polynomial.C (((dt : ℝ) : ℂ) ^ 3 / 6) * Polynomial.X ^ 3 +
      Polynomial.C (((dt : ℝ) : ℂ) ^ 4 / 24) * Polynomial.X ^ 4 with hpdef
    have haeval : Polynomial.aeval Dc p = Sc := by
      rw [hpdef, aeval_stabPolynomial, hSc, stabMatrix_map_ofReal]
    have hnonD : (spectrum ℂ Dc).Nonempty := spectrum.nonempty Dc
    have hnonS : (spectrum ℂ Sc).Nonempty := spectrum.nonempty Sc
    have hmapspec : spectrum ℂ Sc =
        (fun μ => Polynomial.eval μ p) '' spectrum ℂ Dc := by
      rw [← haeval]
      exact spectrum.map_polynomial_aeval_of_nonempty Dc _ hnonD
    have hlt : ∀ ν ∈ spectrum ℂ Sc, ‖ν‖₊ < 1 := by
      intro ν hν
      rw [hmapspec] at hν
      obtain ⟨μ, hμ, heq⟩ := hν
      have heq' : ν = Polynomial.eval μ p := heq.symm
      have habs := (hspec μ hμ).2
      rw [heq', hpdef, eval_stabPolynomial]
      have hn : ‖stabPoly ((dt : ℂ) * μ)‖ < 1 := by
        rw [Complex.norm_eq_abs]
        exact habs
      exact_mod_cast hn
    have hradius : spectralRadius ℂ Sc < 1 := by
      have := spectrum.spectralRadius_lt_of_forall_lt_of_nonempty hnonS
        (r := 1) hlt
      simpa using this
    have hnorm := pow_norm_tendsto_zero_of_spectralRadius_lt_one Sc hradius
    have hlim : Tendsto
        (fun k => ‖Sc ^ k‖ * ‖fun j => ((z0 j : ℝ) : ℂ)‖) atTop (nhds 0) := by
      simpa using hnorm.mul_const ‖fun j => ((z0 j : ℝ) : ℂ)‖
    refine tendsto_pi_nhds.mpr fun i => ?_
    apply squeeze_zero_norm' ?_ hlim
    filter_upwards with k
    rw [rk4Sol_linear]
    have hpowmap : (stabMatrix dt D ^ k).map Complex.ofReal = Sc ^ k := by
      simpa [RingHom.mapMatrix_apply, hSc] using
        map_pow Complex.ofRealHom.mapMatrix (stabMatrix dt D) k
    have h1 : Complex.ofReal ((stabMatrix dt D ^ k).mulVec z0 i) =
        (Sc ^ k).mulVec (fun j => ((z0 j : ℝ) : ℂ)) i := by
      rw [show (Complex.ofReal ((stabMatrix dt D ^ k).mulVec z0 i)) =
          Complex.ofRealHom ((stabMatrix dt D ^ k).mulVec z0 i) from rfl,
        RingHom.map_mulVec]
      rw [show (stabMatrix dt D ^ k).map (⇑Complex.ofRealHom) = Sc ^ k from
        hpowmap]
      rfl
    have h2 : ‖((stabMatrix dt D ^ k).mulVec z0) i‖ =
        ‖(Sc ^ k).mulVec (fun j => ((z0 j : ℝ) : ℂ)) i‖ := by
      rw [← h1, Complex.norm_eq_abs, Complex.abs_ofReal, Real.norm_eq_abs]
    rw [h2]
    calc ‖(Sc ^ k).mulVec (fun j => ((z0 j : ℝ) : ℂ)) i‖
        ≤ ‖(Sc ^ k).mulVec (fun j => ((z0 j : ℝ) : ℂ))‖ :=
          norm_le_pi_norm _ i
      _ ≤ ‖Sc ^ k‖ * ‖fun j => ((z0 j : ℝ) : ℂ)‖ :=
          Matrix.linfty_opNorm_mulVec _ _

/-- Witness for `claim4_amended` at `D = diag(-1)`, `dt = 1`, `z0 = 1`:
the only eigenvalue is `-1`, and `R(-1) = 3/8` lies inside the stability
region. -/
theorem claim4_amended_witness :
    Tendsto
      (fun k => rk4Sol
        (linearObserverField (Matrix.diagonal (fun _ : Fin 1 => (-1 : ℝ))))
        0 1 (fun _ => 1) k)
      atTop (nhds 0) := by
  refine claim4_amended (Matrix.diagonal (fun _ : Fin 1 => (-1 : ℝ))) 1
    (fun _ => 1) (by norm_num) ?_
  intro μ hμ
  rw [Matrix.diagonal_map (by simp), spectrum_diagonal] at hμ
  obtain ⟨i, hi⟩ := hμ
  constructor
  · rw [← hi]
    norm_num
  · have h38 : stabPoly (((1 : ℝ) : ℂ) * μ) = ((3 / 8 : ℝ) : ℂ) := by
      rw [← hi]
      norm_num [stabPoly]
    rw [h38, Complex.abs_ofReal,
      abs_of_nonneg (by norm_num : (0 : ℝ) ≤ 3 / 8)]
    norm_num

end MatrixBanach

/-- C2.  The corrected-dynamics vector field of the monkey-patched `simulate`
path equals the nominal observer dynamics `D·z + F·y(t)` plus the encoder's
PDE residual evaluated at `x_hat = decoder(z)`; in particular, whenever the
residual vanishes at `decoder(z)`, the corrected path integrates exactly the
nominal dynamics of the default `predict` path. -/
theorem claim2_corrected_dynamics {dx dy dz b : ℕ} (net : ObserverNet ℝ dx dy dz)
    (measurement : ℝ → Fin dy → ℝ) (t : ℝ) (z : Fin b → Fin dz → ℝ) (p : Fin b) :
    dydt net measurement t z p =
      (fun i => nominalField net.D net.F measurement t (z p) i +
        pdeResidual net (net.decoder (z p)) i) ∧
    (pdeResidual net (net.decoder (z p)) = 0 →
      dydt net measurement t z p = nominalField net.D net.F measurement t (z p)) := by
  constructor
  · funext i
    simp only [dydt, nominalField, pdeResidual]
  · intro hres
    funext i
    have hi := congrFun hres i
    simp only [pdeResidual, Pi.zero_apply] at hi
    simp only [dydt, nominalField]
    linarith

/-- Witness for `claim2_corrected_dynamics`: the zero transformation model
has vanishing PDE residual, and the corrected dynamics coincide with the
nominal ones on it. -/
theorem claim2_corrected_dynamics_witness :
    dydt (zeroNet (K := ℝ)) (fun _ _ => 0) 0 (fun _ _ => 2) (0 : Fin 1) =
      nominalField (zeroNet (K := ℝ)).D (zeroNet (K := ℝ)).F (fun _ _ => 0) 0
        (fun _ => 2) := by
  have hres : pdeResidual (zeroNet (K := ℝ))
      ((zeroNet (K := ℝ)).decoder (fun _ => 2)) = 0 := by
    funext i
    simp [pdeResidual, zeroNet, Matrix.mulVec]
  exact (claim2_corrected_dynamics (zeroNet (K := ℝ)) (fun _ _ => 0) 0
    (fun _ _ => 2) 0).2 hres

/-- C10.  Both learners of the reversed-Duffing supervised experiment are
constructed from the single split performed once at line 93: they hold the
identical training tensor and the identical validation tensor, while fitting
the forward map `T` and the backward map `T_star` respectively. -/
theorem claim10_shared_split {α : Type} (generated : α) (splitFn : α → α × α) :
    (revDuffingLearners generated splitFn).1.trainingData =
      (revDuffingLearners generated splitFn).2.trainingData ∧
    (revDuffingLearners generated splitFn).1.validationData =
      (revDuffingLearners generated splitFn).2.validationData ∧
    (revDuffingLearners generated splitFn).1.method = "T" ∧
    (revDuffingLearners generated splitFn).2.method = "T_star" := by
  refine ⟨rfl, rfl, rfl, rfl⟩

theorem foldl_min_mem {K : Type} [LinearOrder K] :
    ∀ (l : List K) (a : K), l.foldl min a ∈ a :: l := by
  intro l
  induction l with
  | nil => intro a; simp
  | cons x xs ih =>
      intro a
      rcases List.mem_cons.mp (ih (min a x)) with h | h
      · rcases min_choice a x with hm | hm <;> rw [List.foldl_cons, h, hm] <;> simp
      · simp [List.foldl_cons, List.mem_cons.mpr (Or.inr (List.mem_cons.mpr (Or.inr h)))]

theorem foldl_min_le {K : Type} [LinearOrder K] :
    ∀ (l : List K) (a : K), ∀ y ∈ a :: l, l.foldl min a ≤ y := by
  intro l
  induction l with
  | nil => intro a; simp
  | cons x xs ih =>
      intro a y hy
      have hbase : xs.foldl min (min a x) ≤ min a x :=
        ih (min a x) (min a x) (List.mem_cons_self _ _)
      rw [List.foldl_cons]
      rcases List.mem_cons.mp hy with hy | hy
      · rw [hy]
        exact le_trans hbase (min_le_left _ _)
      · rcases List.mem_cons.mp hy with hy | hy
        · rw [hy]
          exact le_trans hbase (min_le_right _ _)
        · exact ih (min a x) y (List.mem_cons.mpr (Or.inr hy))

/-- C7.  The validation loss of the retained best checkpoint never regresses
across validation checks: after every check it is at most what it was after
the previous check, and it equals the minimum validation loss observed so
far (it is one of the observed losses and is a lower bound for them). -/
theorem claim7_best_checkpoint (first : ℝ) (rest : List ℝ) (k : ℕ) :
    bestAfter first rest (k + 1) ≤ bestAfter first rest k ∧
    bestAfter first rest k ∈ first :: rest.take k ∧
    ∀ y ∈ first :: rest.take k, bestAfter first rest k ≤ y := by
  refine ⟨?_, foldl_min_mem (rest.take k) first, foldl_min_le (rest.take k) first⟩
  unfold bestAfter
  rw [List.take_succ]
  rcases h : rest[k]? with _ | b
  · simp
  · simp only [Option.toList_some, List.foldl_append, List.foldl_cons, List.foldl_nil]
    exact min_le_left _ _

theorem filter_length_split {α : Type} (p : α → Bool) (l : List α) :
    (l.filter fun a => ! p a).length + (l.filter p).length = l.length := by
  induction l with
  | nil => simp
  | cons x xs ih =>
      by_cases hx : p x <;> simp [List.filter_cons, hx, ← ih] <;> omega

/-- C5.  During data generation a diverging sample is dropped and not
substituted — the returned dataset is exactly the integration results of the
non-diverging initial conditions, in order, and its size is the number of
initial conditions minus the number of diverging ones; during
prediction/evaluation a divergence is fatal and surfaced to the caller as an
`IntegrationDivergence` error.  Neither path retries. -/
theorem claim5_divergence_handling {α β γ δ : Type} (integ : α → β)
    (divergesB : β → Bool) (ics : List α) (divergesG : γ → Bool)
    (decodeTraj : γ → δ) (run : γ) (hdiv : divergesG run = true) :
    generateDataDropping integ divergesB ics =
      ((ics.filter fun ic => ! divergesB (integ ic)).map integ) ∧
    (generateDataDropping integ divergesB ics).length =
      ics.length - (ics.filter fun ic => divergesB (integ ic)).length ∧
    predictChecked divergesG decodeTraj run =
      Except.error KKLError.integrationDivergence := by
  refine ⟨?_, ?_, ?_⟩
  · unfold generateDataDropping
    rw [List.filter_map]
    rfl
  · unfold generateDataDropping
    rw [List.filter_map]
    have hsplit := filter_length_split (fun ic => divergesB (integ ic)) ics
    rw [List.length_map]
    have : ((fun tr => ! divergesB tr) ∘ integ) = fun ic => ! divergesB (integ ic) := rfl
    rw [this]
    omega
  · unfold predictChecked
    rw [hdiv]
    rfl

/-- Witness for `claim5_divergence_handling`: integration is the identity on
`ℕ`, the sanity check fires above `5`, the initial conditions are
`[1, 7, 3]` (so `7` is dropped), and the prediction run diverges. -/
theorem claim5_divergence_handling_witness :
    generateDataDropping (id : ℕ → ℕ) (fun tr => decide (tr > 5)) [1, 7, 3] =
      ((([1, 7, 3] : List ℕ).filter fun ic => ! decide (id ic > 5)).map id) ∧
    (generateDataDropping (id : ℕ → ℕ) (fun tr => decide (tr > 5))
      [1, 7, 3]).length =
      ([1, 7, 3] : List ℕ).length -
        (([1, 7, 3] : List ℕ).filter fun ic => decide (id ic > 5)).length ∧
    predictChecked (fun _ : ℕ => true) (id : ℕ → ℕ) 0 =
      Except.error KKLError.integrationDivergence :=
  claim5_divergence_handling id (fun tr => decide (tr > 5)) [1, 7, 3]
    (fun _ => true) id 0 (by decide)

theorem headD_eq_getD_zero {α : Type} (l : List α) (d : α) :
    l.headD d = l.getD 0 d := by
  cases l <;> rfl

theorem getD_map_of_lt {α β : Type} (l : List α) (f : α → β) (k : ℕ)
    (h : k < l.length) (d : β) (d0 : α) :
    (l.map f).getD k d = f (l.getD k d0) := by
  rw [List.getD_eq_getElem?_getD, List.getD_eq_getElem?_getD, List.getElem?_map,
    List.getElem?_eq_getElem h]
  rfl

/-- C8.  Hardware CSV ingestion: the time grid is the timestamp column of the
valid rows shifted by the first valid row's timestamp (so it starts at `0`),
and the data matrix consists of exactly the columns strictly between the
index column and the timestamp column of the valid rows (for a row laid out
as `index :: fields ++ [timestamp]`, those are exactly `fields`). -/
theorem claim8_csv_ingestion (rows : List (List ℝ)) (i : ℕ) (idx ts : ℝ)
    (mid : List ℝ) (hne : validRows rows ≠ [])
    (hi : i < (validRows rows).length) :
    (ingestTimeGrid rows).getD 0 0 = 0 ∧
    (ingestTimeGrid rows).getD i 0 =
      timestampCol ((validRows rows).getD i []) -
        timestampCol ((validRows rows).getD 0 []) ∧
    (ingestDataMatrix rows).getD i [] =
      middleColumns ((validRows rows).getD i []) ∧
    middleColumns (idx :: (mid ++ [ts])) = mid ∧
    timestampCol (idx :: (mid ++ [ts])) = ts := by
  have h0 : 0 < (validRows rows).length := List.length_pos.mpr hne
  refine ⟨?_, ?_, ?_, ?_, ?_⟩
  · unfold ingestTimeGrid
    rw [getD_map_of_lt _ _ 0 h0 0 [], headD_eq_getD_zero]
    exact sub_self _
  · unfold ingestTimeGrid
    rw [getD_map_of_lt _ _ i hi 0 [], headD_eq_getD_zero]
  · unfold ingestDataMatrix
    rw [getD_map_of_lt _ _ i hi [] []]
  · show ((idx :: (mid ++ [ts])).drop 1).dropLast = mid
    simp [List.dropLast_concat]
  · show (idx :: (mid ++ [ts])).getLastD 0 = ts
    exact List.getLastD_concat 0 ts (idx :: mid)

/-- Witness for `claim8_csv_ingestion` on a CSV with a header row and two
valid rows `[10, 5, 100]` and `[20, 6, 101]`. -/
theorem claim8_csv_ingestion_witness :
    (ingestTimeGrid csvRowsExample).getD 0 0 = 0 ∧
    (ingestTimeGrid csvRowsExample).getD 1 0 =
      timestampCol ((validRows csvRowsExample).getD 1 []) -
        timestampCol ((validRows csvRowsExample).getD 0 []) ∧
    (ingestDataMatrix csvRowsExample).getD 1 [] =
      middleColumns ((validRows csvRowsExample).getD 1 []) ∧
    middleColumns ((7 : ℝ) :: ([1, 2] ++ [8])) = [1, 2] ∧
    timestampCol ((7 : ℝ) :: ([1, 2] ++ [8])) = 8 := by
  have hv : validRows csvRowsExample =
      [[(10 : ℝ), 5, 100], [20, 6, 101]] := by
    unfold validRows csvRowsExample
    rw [List.drop_one, List.tail_cons]
    exact List.take_of_length_le (by norm_num)
  exact claim8_csv_ingestion csvRowsExample 1 7 8 [1, 2]
    (by rw [hv]; simp) (by rw [hv]; norm_num)

theorem length_flatMap_map {α β γ : Type} (l : List α) (l2 : List β)
    (g : α → β → γ) :
    (l.flatMap fun v => l2.map (g v)).length = l.length * l2.length := by
  induction l with
  | nil => simp
  | cons x xs ih =>
      simp only [List.flatMap_cons, List.length_append, List.length_map, ih,
        List.length_cons]
      ring

theorem flatMap_range_length {α : Type} (N L : ℕ) (f : ℕ → List α)
    (hf : ∀ j, j < N → (f j).length = L) :
    ((List.range N).flatMap f).length = N * L := by
  induction N with
  | zero => simp
  | succ M ih =>
      rw [List.range_succ, List.flatMap_append]
      simp only [List.length_append]
      rw [ih fun j hj => hf j (Nat.lt_succ_of_lt hj)]
      simp only [List.flatMap_cons, List.flatMap_nil, List.append_nil]
      rw [hf M (Nat.lt_succ_self M)]
      ring

theorem getD_append_of_lt {α : Type} (l1 l2 : List α) (k : ℕ) (d : α)
    (h : k < l1.length) : (l1 ++ l2).getD k d = l1.getD k d := by
  rw [List.getD_eq_getElem?_getD, List.getD_eq_getElem?_getD,
    List.getElem?_append, if_pos h]

theorem getD_append_of_ge {α : Type} (l1 l2 : List α) (k : ℕ) (d : α)
    (h : l1.length ≤ k) : (l1 ++ l2).getD k d = l2.getD (k - l1.length) d := by
  rw [List.getD_eq_getElem?_getD, List.getD_eq_getElem?_getD,
    List.getElem?_append, if_neg (not_lt.mpr h)]

theorem getD_take_of_lt {α : Type} (l : List α) (k i : ℕ) (d : α)
    (h : i < k) : (l.take k).getD i d = l.getD i d := by
  rw [List.getD_eq_getElem?_getD, List.getD_eq_getElem?_getD,
    List.getElem?_take, if_pos h]

theorem getD_drop {α : Type} (l : List α) (k i : ℕ) (d : α) :
    (l.drop k).getD i d = l.getD (k + i) d := by
  rw [List.getD_eq_getElem?_getD, List.getD_eq_getElem?_getD,
    List.getElem?_drop]

theorem flatMap_range_getD {α : Type} (N L : ℕ) (f : ℕ → List α)
    (hf : ∀ j, j < N → (f j).length = L) (j t : ℕ) (hj : j < N) (ht : t < L)
    (d : α) :
    ((List.range N).flatMap f).getD (j * L + t) d = (f j).getD t d := by
  induction N with
  | zero => omega
  | succ M ih =>
      rw [List.range_succ, List.flatMap_append]
      have hlen : ((List.range M).flatMap f).length = M * L :=
        flatMap_range_length M L f fun j hj => hf j (Nat.lt_succ_of_lt hj)
      rcases Nat.lt_or_ge j M with hjM | hjM
      · have hidx : j * L + t < M * L := by
          have h1 : j + 1 ≤ M := hjM
          calc j * L + t < j * L + L := by omega
            _ = (j + 1) * L := by ring
            _ ≤ M * L := Nat.mul_le_mul_right L h1
        rw [getD_append_of_lt _ _ _ _ (by rw [hlen]; exact hidx)]
        exact ih (fun j hj => hf j (Nat.lt_succ_of_lt hj)) hjM
      · have hjeq : j = M := by omega
        subst hjeq
        rw [getD_append_of_ge _ _ _ _ (by rw [hlen]; omega)]
        rw [hlen]
        simp only [List.flatMap_cons, List.flatMap_nil, List.append_nil]
        congr 1
        omega

/-- C9.  Flattening trajectory data with
`torch.cat(torch.unbind(data, dim=1), dim=0)` keeps each trajectory's samples
contiguous and in increasing time order (the sample of trajectory `j` at time
index `t` sits at flat position `j·T + t`), and the subsequent
`train_test_split` is performed with `shuffle=False` — an order-preserving
head/tail split — so per-trajectory time ordering is preserved in both
subsets; the split after grid/space-filling generation
(`0_supervised_revduffing.py` line 93) is the only shuffled one. -/
theorem claim9_flatten_ordering (data : List (List (List ℝ))) (nTest j t i : ℕ)
    (hj : j < numTrajs data) (ht : t < data.length)
    (hi : i < (flattenTrajData [] data).length - nTest) :
    (flattenTrajData [] data).length = numTrajs data * data.length ∧
    (flattenTrajData [] data).getD (j * data.length + t) [] =
      ((data.getD t []).getD j []) ∧
    (trainTestSplitNoShuffle (flattenTrajData [] data) nTest).1.getD i [] =
      (flattenTrajData [] data).getD i [] ∧
    (trainTestSplitNoShuffle (flattenTrajData [] data) nTest).2.getD i [] =
      (flattenTrajData [] data).getD
        ((flattenTrajData [] data).length - nTest + i) [] ∧
    trajModeSplitShuffle = false ∧ gridModeSplitShuffle = true := by
  have hflen : ∀ j', j' < numTrajs data →
      (data.map fun row => row.getD j' []).length = data.length := by
    intro j' _
    exact List.length_map data _
  refine ⟨?_, ?_, ?_, ?_, rfl, rfl⟩
  · exact flatMap_range_length _ _ _ hflen
  · unfold flattenTrajData
    rw [flatMap_range_getD _ _ _ hflen j t hj ht]
    exact getD_map_of_lt _ _ t ht [] []
  · exact getD_take_of_lt _ _ _ _ hi
  · exact getD_drop _ _ _ _

/-- Witness for `claim9_flatten_ordering` on a tensor with two time steps and
two trajectories. -/
theorem claim9_flatten_ordering_witness :
    (flattenTrajData [] [[[(1 : ℝ)], [2]], [[3], [4]]]).length =
      numTrajs [[[(1 : ℝ)], [2]], [[3], [4]]] *
        ([[[(1 : ℝ)], [2]], [[3], [4]]] : List (List (List ℝ))).length ∧
    (flattenTrajData [] [[[(1 : ℝ)], [2]], [[3], [4]]]).getD
        (1 * ([[[(1 : ℝ)], [2]], [[3], [4]]] : List (List (List ℝ))).length + 1)
        [] =
      (([[[(1 : ℝ)], [2]], [[3], [4]]] : List (List (List ℝ))).getD 1 []).getD
        1 [] ∧
    (trainTestSplitNoShuffle (flattenTrajData [] [[[(1 : ℝ)], [2]], [[3], [4]]])
        1).1.getD 0 [] =
      (flattenTrajData [] [[[(1 : ℝ)], [2]], [[3], [4]]]).getD 0 [] ∧
    (trainTestSplitNoShuffle (flattenTrajData [] [[[(1 : ℝ)], [2]], [[3], [4]]])
        1).2.getD 0 [] =
      (flattenTrajData [] [[[(1 : ℝ)], [2]], [[3], [4]]]).getD
        ((flattenTrajData [] [[[(1 : ℝ)], [2]], [[3], [4]]]).length - 1 + 0) [] ∧
    trajModeSplitShuffle = false ∧ gridModeSplitShuffle = true := by
  have h1 : (flattenTrajData [] [[[(1 : ℝ)], [2]], [[3], [4]]]).length = 4 := by
    simp [flattenTrajData, numTrajs, List.range_succ]
  exact claim9_flatten_ordering [[[(1 : ℝ)], [2]], [[3], [4]]] 1 1 1 0
    (by simp [numTrajs]) (by norm_num) (by rw [h1]; norm_num)

theorem uniformGrid_length (bs : List (ℝ × ℝ)) (n : ℕ) :
    (uniformGrid bs n).length = n ^ bs.length := by
  induction bs with
  | nil => simp [uniformGrid]
  | cons bhd btl ih =>
      rw [uniformGrid, length_flatMap_map, List.length_map, List.length_range,
        List.length_cons, ih, pow_succ]
      ring

theorem uniformGrid_mem (bs : List (ℝ × ℝ)) (n : ℕ) (p : List ℝ) :
    p ∈ uniformGrid bs n ↔
      List.Forall₂ (fun b x => ∃ i < n, x = linspaceVal b.1 b.2 n i) bs p := by
  induction bs generalizing p with
  | nil =>
      simp only [uniformGrid, List.mem_singleton, List.forall₂_nil_left_iff]
  | cons bhd btl ih =>
      simp only [uniformGrid, List.mem_flatMap, List.mem_map, List.mem_range]
      constructor
      · rintro ⟨v, hv, q, hq, rfl⟩
        obtain ⟨i, hi, rfl⟩ := hv
        exact List.Forall₂.cons ⟨i, hi, rfl⟩ ((ih q).mp hq)
      · intro hp
        rcases List.forall₂_cons_left_iff.mp hp with ⟨x, q, hrel, hq, rfl⟩
        obtain ⟨i, hi, rfl⟩ := hrel
        exact ⟨linspaceVal bhd.1 bhd.2 n i, ⟨i, hi, rfl⟩, q, (ih q).mpr hq, rfl⟩

/-- C3.  `generate_data_svl` with `method="uniform"` and
`num_samples = n^dim_x` returns exactly `n^dim_x` points forming exactly the
regular grid with `n` points per axis (a point is returned iff each of its
coordinates is one of the `n` `linspace` values of its axis), while
`method="LHS"` returns exactly `num_samples` points in every dimension. -/
theorem claim3_sampling_counts (bounds : List (ℝ × ℝ)) (n m : ℕ)
    (perm : ℕ → ℕ → ℕ) (off : ℕ → ℕ → ℝ) (p : List ℝ)
    (hd : 1 ≤ bounds.length) (hn : 1 ≤ n) :
    (uniformGrid bounds n).length = n ^ bounds.length ∧
    (p ∈ uniformGrid bounds n ↔
      List.Forall₂ (fun b x => ∃ i < n, x = linspaceVal b.1 b.2 n i)
        bounds p) ∧
    (lhsSample bounds m perm off).length = m :=
  ⟨uniformGrid_length bounds n, uniformGrid_mem bounds n p, by simp [lhsSample]⟩

/-- Witness for `claim3_sampling_counts` on the 2-dimensional bounds
`[-1, 1] × [-1, 1]` of the reversed-Duffing experiment with `n = 2` grid
points per axis and `m = 5` LHS samples. -/
theorem claim3_sampling_counts_witness :
    (uniformGrid [((-1 : ℝ), 1), (-1, 1)] 2).length =
      2 ^ ([((-1 : ℝ), 1), (-1, 1)] : List (ℝ × ℝ)).length ∧
    ([(-1 : ℝ), -1] ∈ uniformGrid [((-1 : ℝ), 1), (-1, 1)] 2 ↔
      List.Forall₂ (fun b x => ∃ i < 2, x = linspaceVal b.1 b.2 2 i)
        [((-1 : ℝ), 1), (-1, 1)] [(-1 : ℝ), -1]) ∧
    (lhsSample [((-1 : ℝ), 1), (-1, 1)] 5 (fun _ _ => 0)
      (fun _ _ => 1 / 2)).length = 5 :=
  claim3_sampling_counts [((-1 : ℝ), 1), (-1, 1)] 2 5 (fun _ _ => 0)
    (fun _ _ => 1 / 2) [(-1 : ℝ), -1] (by norm_num) (by norm_num)

theorem getD_map_range {α : Type} (g : ℕ → α) (N k : ℕ) (hk : k < N) (d : α) :
    ((List.range N).map g).getD k d = g k := by
  rw [List.getD_eq_getElem?_getD, List.getElem?_map, List.getElem?_range hk]
  rfl

/-- C1.  `predict(y, tsim, dt)` returns exactly the decoded observer
trajectory: the returned list has one entry per grid point `t0 + k·dt`, its
`k`-th entry is `decoder` applied to the `k`-th state of the ODE Integration
Service run on the interpolated-measurement observer dynamics
`ż = D·z + F·y(t)`, and the integration starts from `0` when no initial
condition is specified and from the specified one otherwise. -/
theorem claim1_predict {dx dy dz : ℕ} (D : Matrix (Fin dz) (Fin dz) ℝ)
    (F : Matrix (Fin dz) (Fin dy) ℝ) (decoder : (Fin dz → ℝ) → Fin dx → ℝ)
    (interp : List (ℝ × (Fin dy → ℝ)) → ℝ → Fin dy → ℝ)
    (y : List (ℝ × (Fin dy → ℝ))) (t0 dt : ℝ) (N : ℕ)
    (z0 : Option (Fin dz → ℝ)) (k : ℕ) (hk : k < N) :
    (predictObserver D F decoder interp y t0 dt N z0).length = N ∧
    (predictObserver D F decoder interp y t0 dt N z0).getD k (fun _ => 0) =
      decoder (rk4Sol
        (fun t z i => D.mulVec z i + F.mulVec (interp y t) i) t0 dt
        (z0.getD fun _ => 0) k) ∧
    (z0 = none →
      rk4Sol (fun t z i => D.mulVec z i + F.mulVec (interp y t) i) t0 dt
        (z0.getD fun _ => 0) 0 = fun _ => 0) := by
  refine ⟨?_, ?_, ?_⟩
  · simp [predictObserver, simulateObserver]
  · unfold predictObserver simulateObserver
    rw [List.map_map]
    exact getD_map_range _ N k hk _
  · intro hz
    subst hz
    rfl

/-- Witness for `claim1_predict` on a one-dimensional observer with zero
matrices and no specified initial condition. -/
theorem claim1_predict_witness :
    (predictObserver (0 : Matrix (Fin 1) (Fin 1) ℝ) (0 : Matrix (Fin 1) (Fin 1) ℝ)
      (fun z => z) zeroInterp ([] : List (ℝ × (Fin 1 → ℝ))) 0 1 3
      none).length = 3 ∧
    (predictObserver (0 : Matrix (Fin 1) (Fin 1) ℝ) (0 : Matrix (Fin 1) (Fin 1) ℝ)
      (fun z => z) zeroInterp ([] : List (ℝ × (Fin 1 → ℝ))) 0 1 3
      none).getD 1 (fun _ => 0) =
      (fun z : Fin 1 → ℝ => z) (rk4Sol
        (fun t z i => (0 : Matrix (Fin 1) (Fin 1) ℝ).mulVec z i +
          (0 : Matrix (Fin 1) (Fin 1) ℝ).mulVec
            (zeroInterp ([] : List (ℝ × (Fin 1 → ℝ))) t) i) 0 1
        ((none : Option (Fin 1 → ℝ)).getD fun _ => 0) 1) ∧
    ((none : Option (Fin 1 → ℝ)) = none →
      rk4Sol (fun t z i => (0 : Matrix (Fin 1) (Fin 1) ℝ).mulVec z i +
          (0 : Matrix (Fin 1) (Fin 1) ℝ).mulVec
            (zeroInterp ([] : List (ℝ × (Fin 1 → ℝ))) t) i) 0 1
        ((none : Option (Fin 1 → ℝ)).getD fun _ => 0) 0 = fun _ => 0) :=
  claim1_predict 0 0 (fun z => z) zeroInterp ([] : List (ℝ × (Fin 1 → ℝ)))
    0 1 3 none 1 (by norm_num)

theorem blockDiagGain_apply (wc : K) (n : ℕ) (i j : Fin n) :
    blockDiagGain wc n i j = if (i : ℕ) = (j : ℕ) then -wc
      else if (i : ℕ) / 2 = (j : ℕ) / 2 then
        (if (i : ℕ) % 2 = 0 then wc else -wc)
      else 0 := rfl

theorem sum_two_terms {n : ℕ} (f : Fin n → ℂ) (E O : Fin n) (hEO : E ≠ O)
    (hz : ∀ j, j ≠ E → j ≠ O → f j = 0) :
    (Finset.univ.sum f) = f E + f O := by
  rw [← Finset.sum_pair hEO]
  symm
  apply Finset.sum_subset (Finset.subset_univ _)
  intro x _ hx
  simp only [Finset.mem_insert, Finset.mem_singleton] at hx
  push_neg at hx
  exact hz x hx.1 hx.2

theorem sum_one_term {n : ℕ} (f : Fin n → ℂ) (E : Fin n)
    (hz : ∀ j, j ≠ E → f j = 0) :
    (Finset.univ.sum f) = f E := by
  rw [← Finset.sum_singleton f E]
  symm
  apply Finset.sum_subset (Finset.subset_univ _)
  intro x _ hx
  simp only [Finset.mem_singleton] at hx
  exact hz x hx

theorem spectrum_matrix_eigvec {n : ℕ} (M : Matrix (Fin n) (Fin n) ℂ) (μ : ℂ)
    (hμ : μ ∈ spectrum ℂ M) : ∃ v : Fin n → ℂ, v ≠ 0 ∧ M.mulVec v = μ • v := by
  rw [spectrum.mem_iff] at hμ
  have hdet : (algebraMap ℂ (Matrix (Fin n) (Fin n) ℂ) μ - M).det = 0 := by
    by_contra hd
    exact hμ ((Matrix.isUnit_iff_isUnit_det _).mpr (isUnit_iff_ne_zero.mpr hd))
  obtain ⟨v, hv0, hv⟩ := Matrix.exists_mulVec_eq_zero_iff.mpr hdet
  refine ⟨v, hv0, ?_⟩
  rw [Matrix.sub_mulVec] at hv
  have halg : (algebraMap ℂ (Matrix (Fin n) (Fin n) ℂ) μ).mulVec v = μ • v := by
    funext i
    rw [Matrix.algebraMap_eq_diagonal]
    simp [Matrix.mulVec_diagonal]
  rw [halg] at hv
  exact (sub_eq_zero.mp hv).symm

theorem eigen_row_eq {n : ℕ} (M : Matrix (Fin n) (Fin n) ℂ) (v : Fin n → ℂ)
    (μ : ℂ) (h : M.mulVec v = μ • v) (i : Fin n) :
    (Finset.univ.sum fun j => M i j * v j) = μ * v i := by
  have := congrFun h i
  simpa [Matrix.mulVec, Matrix.dotProduct] using this

theorem eig_of_sq_eq_neg_sq {μ : ℂ} {w : ℝ} (hw : 0 < w)
    (hsq : (μ + (w : ℂ)) ^ 2 = -((w : ℂ) ^ 2)) :
    μ.re = -w ∧ (μ.im = w ∨ μ.im = -w) := by
  have hre := congrArg Complex.re hsq
  have him := congrArg Complex.im hsq
  simp only [pow_two, Complex.mul_re, Complex.mul_im, Complex.add_re,
    Complex.add_im, Complex.ofReal_re, Complex.ofReal_im, Complex.neg_re,
    Complex.neg_im, add_zero, mul_zero, zero_mul, neg_zero, sub_zero,
    zero_add] at hre him
  have him' : (μ.re + w) * μ.im = 0 := by linarith
  rcases mul_eq_zero.mp him' with h1 | h2
  · have hrw : μ.re = -w := by linarith
    refine ⟨hrw, ?_⟩
    have hf : (μ.im - w) * (μ.im + w) = 0 := by nlinarith
    rcases mul_eq_zero.mp hf with h | h
    · left; linarith
    · right; linarith
  · exfalso
    nlinarith [sq_nonneg (μ.re + w)]

/-- C6.  For every cutoff frequency `wc > 0` the auto-generated block-diagonal
gain matrix is `dim_z × dim_z` and every eigenvalue `μ` of it (over `ℂ`) has
negative real part — in fact `μ.re = -wc` and `μ.im ∈ {wc, -wc, 0}`, so the
eigenvalue magnitudes are set by `wc` and the linear observer dynamics
`ż = D·z + F·y` are stable. -/
theorem claim6_block_diag_stable (wc : ℝ) (n : ℕ) (hwc : 0 < wc) (μ : ℂ)
    (hμ : μ ∈ spectrum ℂ ((blockDiagGain wc n).map Complex.ofReal)) :
    μ.re < 0 ∧ μ.re = -wc ∧ (μ.im = wc ∨ μ.im = -wc ∨ μ.im = 0) := by
  obtain ⟨v, hv0, hv⟩ := spectrum_matrix_eigvec _ _ hμ
  obtain ⟨i0, hi0⟩ := Function.ne_iff.mp hv0
  rw [Pi.zero_apply] at hi0
  have hMapp : ∀ i j : Fin n, ((blockDiagGain wc n).map Complex.ofReal) i j =
      ((blockDiagGain wc n i j : ℝ) : ℂ) := fun i j => rfl
  have ha2 : 2 * ((i0 : ℕ) / 2) ≤ (i0 : ℕ) := by omega
  have he : 2 * ((i0 : ℕ) / 2) < n := lt_of_le_of_lt ha2 i0.isLt
  by_cases hcase : 2 * ((i0 : ℕ) / 2) + 1 < n
  · set p := (i0 : ℕ) / 2 with hp
    set E : Fin n := ⟨2 * p, he⟩ with hE
    set O : Fin n := ⟨2 * p + 1, hcase⟩ with hO
    have hEv : (E : ℕ) = 2 * p := rfl
    have hOv : (O : ℕ) = 2 * p + 1 := rfl
    have hEO : E ≠ O := by
      intro h
      have := congrArg Fin.val h
      omega
    have hzE : ∀ j, j ≠ E → j ≠ O →
        ((blockDiagGain wc n).map Complex.ofReal) E j * v j = 0 := by
      intro j hjE hjO
      have h1 : ¬((E : ℕ) = (j : ℕ)) := by
        intro h
        exact hjE (Fin.ext h.symm)
      have h2 : ¬((E : ℕ) / 2 = (j : ℕ) / 2) := by
        intro h
        have hj : (j : ℕ) = 2 * p ∨ (j : ℕ) = 2 * p + 1 := by omega
        rcases hj with hj | hj
        · exact hjE (Fin.ext (by omega))
        · exact hjO (Fin.ext (by omega))
      rw [hMapp, blockDiagGain_apply, if_neg h1, if_neg h2]
      simp
    have hzO : ∀ j, j ≠ O → j ≠ E →
        ((blockDiagGain wc n).map Complex.ofReal) O j * v j = 0 := by
      intro j hjO hjE
      have h1 : ¬((O : ℕ) = (j : ℕ)) := by
        intro h
        exact hjO (Fin.ext h.symm)
      have h2 : ¬((O : ℕ) / 2 = (j : ℕ) / 2) := by
        intro h
        have hj : (j : ℕ) = 2 * p ∨ (j : ℕ) = 2 * p + 1 := by omega
        rcases hj with hj | hj
        · exact hjE (Fin.ext (by omega))
        · exact hjO (Fin.ext (by omega))
      rw [hMapp, blockDiagGain_apply, if_neg h1, if_neg h2]
      simp
    have hMEE : ((blockDiagGain wc n).map Complex.ofReal) E E =
        ((-wc : ℝ) : ℂ) := by
      rw [hMapp, blockDiagGain_apply, if_pos rfl]
    have hMEO : ((blockDiagGain wc n).map Complex.ofReal) E O =
        ((wc : ℝ) : ℂ) := by
      rw [hMapp, blockDiagGain_apply, if_neg (by omega), if_pos (by omega),
        if_pos (by omega)]
    have hMOE : ((blockDiagGain wc n).map Complex.ofReal) O E =
        ((-wc : ℝ) : ℂ) := by
      rw [hMapp, blockDiagGain_apply, if_neg (by omega), if_pos (by omega),
        if_neg (by omega)]
    have hMOO : ((blockDiagGain wc n).map Complex.ofReal) O O =
        ((-wc : ℝ) : ℂ) := by
      rw [hMapp, blockDiagGain_apply, if_pos rfl]
    have hrowE := eigen_row_eq _ v μ hv E
    have hrowO := eigen_row_eq _ v μ hv O
    rw [sum_two_terms _ E O hEO hzE, hMEE, hMEO] at hrowE
    rw [sum_two_terms _ O E (Ne.symm hEO) (fun j h1 h2 => hzO j h1 h2), hMOO,
      hMOE] at hrowO
    push_cast at hrowE hrowO
    have eq1 : (μ + (wc : ℂ)) * v E = (wc : ℂ) * v O := by
      linear_combination -hrowE
    have eq2 : (μ + (wc : ℂ)) * v O = -((wc : ℂ)) * v E := by
      linear_combination -hrowO
    have hkeyE : ((μ + (wc : ℂ)) ^ 2 + (wc : ℂ) ^ 2) * v E = 0 := by
      linear_combination (μ + (wc : ℂ)) * eq1 + (wc : ℂ) * eq2
    have hkeyO : ((μ + (wc : ℂ)) ^ 2 + (wc : ℂ) ^ 2) * v O = 0 := by
      linear_combination (μ + (wc : ℂ)) * eq2 - (wc : ℂ) * eq1
    have hio : i0 = E ∨ i0 = O := by
      have : (i0 : ℕ) = 2 * p ∨ (i0 : ℕ) = 2 * p + 1 := by omega
      rcases this with h | h
      · exact Or.inl (Fin.ext h)
      · exact Or.inr (Fin.ext h)
    have hkey : ((μ + (wc : ℂ)) ^ 2 + (wc : ℂ) ^ 2) * v i0 = 0 := by
      rcases hio with h | h <;> rw [h] <;> assumption
    have hfac : (μ + (wc : ℂ)) ^ 2 + (wc : ℂ) ^ 2 = 0 := by
      rcases mul_eq_zero.mp hkey with h | h
      · exact h
      · exact absurd h hi0
    have hsq : (μ + (wc : ℂ)) ^ 2 = -((wc : ℂ) ^ 2) :=
      eq_neg_of_add_eq_zero_left hfac
    obtain ⟨hre, him⟩ := eig_of_sq_eq_neg_sq hwc hsq
    refine ⟨by rw [hre]; linarith, hre, ?_⟩
    rcases him with h | h
    · exact Or.inl h
    · exact Or.inr (Or.inl h)
  · have hae : (i0 : ℕ) = 2 * ((i0 : ℕ) / 2) := by omega
    have hzI : ∀ j, j ≠ i0 →
        ((blockDiagGain wc n).map Complex.ofReal) i0 j * v j = 0 := by
      intro j hj
      have h1 : ¬((i0 : ℕ) = (j : ℕ)) := by
        intro h
        exact hj (Fin.ext h.symm)
      have h2 : ¬((i0 : ℕ) / 2 = (j : ℕ) / 2) := by
        intro h
        have hjn : (j : ℕ) < n := j.isLt
        have : (j : ℕ) = (i0 : ℕ) := by omega
        exact hj (Fin.ext this)
      rw [hMapp, blockDiagGain_apply, if_neg h1, if_neg h2]
      simp
    have hMII : ((blockDiagGain wc n).map Complex.ofReal) i0 i0 =
        ((-wc : ℝ) : ℂ) := by
      rw [hMapp, blockDiagGain_apply, if_pos rfl]
    have hrow := eigen_row_eq _ v μ hv i0
    rw [sum_one_term _ i0 hzI, hMII] at hrow
    push_cast at hrow
    have hfac : (μ + (wc : ℂ)) * v i0 = 0 := by linear_combination -hrow
    have hmu : μ = -(wc : ℂ) := by
      rcases mul_eq_zero.mp hfac with h | h
      · linear_combination h
      · exact absurd h hi0
    refine ⟨?_, ?_, Or.inr (Or.inr ?_)⟩
    · rw [hmu]
      simp [hwc]
    · rw [hmu]
      simp
    · rw [hmu]
      simp

/-- Witness for `claim6_block_diag_stable` at `wc = 1`, `dim_z = 1`, where
the constructed gain matrix is the scalar block `[-1]` with eigenvalue
`μ = -1`. -/
theorem claim6_block_diag_stable_witness :
    ((-1 : ℂ)).re < 0 ∧ ((-1 : ℂ)).re = -(1 : ℝ) ∧
      (((-1 : ℂ)).im = (1 : ℝ) ∨ ((-1 : ℂ)).im = -(1 : ℝ) ∨
        ((-1 : ℂ)).im = 0) := by
  have hmat : (blockDiagGain (1 : ℝ) 1).map Complex.ofReal =
      Matrix.diagonal (fun _ : Fin 1 => (-1 : ℂ)) := by
    funext i j
    fin_cases i
    fin_cases j
    simp [blockDiagGain, Matrix.map_apply, Matrix.diagonal]
  have hμ : (-1 : ℂ) ∈ spectrum ℂ ((blockDiagGain (1 : ℝ) 1).map
      Complex.ofReal) := by
    rw [hmat, spectrum_diagonal]
    exact ⟨0, rfl⟩
  exact claim6_block_diag_stable 1 1 (by norm_num) (-1) hμ

end LearnKKL
